import Mathlib

/-!
Verification of the PolicyChecker concurrent evidence-matching pipeline.

The JavaScript source (process.controller.js together with the drive, policy
and gemini service modules) is shallowly embedded below.  JS strings are
modelled as `List Char` (a JS string is a sequence of UTF-16 units; all the
operations the pipeline uses — `length`, `substring`, `indexOf`, `includes`,
`charAt`, concatenation — are plain sequence operations).  JS numbers are
modelled as `Nat`/`Int` where the source only ever holds integers, and as `ℚ`
for the adaptive-delay value, which is repeatedly multiplied by the rational
constants 1.5, 1.2 and 0.9.  Asynchronous code is modelled by explicit
outcome parameters: a settled promise is a value of `Except ε α`
(`.error` = rejected, `.ok` = fulfilled), and timed sleeps are recorded in an
explicit event list.
-/

namespace PolicyChecker

/-- JS strings modelled as lists of UTF-16 units. -/
abbrev Str := List Char

/-- Model of `String.prototype.toLowerCase` (per-unit lowering). -/
def lowerStr (s : Str) : Str := s.map Char.toLower

/-- Helper for substring search: `startsWith l p` holds when `p` is an
initial segment of `l` (the comparison JS performs at one candidate
offset during `indexOf`/`includes`). -/
def startsWith : Str → Str → Bool
  | _, [] => true
  | [], _ :: _ => false
  | a :: as, b :: bs => a == b && startsWith as bs

/-- Model of `String.prototype.includes`: `containsSub l s` is true when `s`
occurs contiguously inside `l`. -/
def containsSub : Str → Str → Bool
  | [], s => startsWith [] s
  | l@(_ :: t), s => startsWith l s || containsSub t s

theorem startsWith_nil (p : Str) : startsWith [] p = (p == []) := by
  cases p <;> rfl

/-! ### Levenshtein distance

`levRec` is the mathematical edit distance, written as the classic structural
recursion.  `levFinalRow` / `levenshteinDistance` embed the source's
`levenshteinDistance(str1, str2)`: the imperative code fills a
`(str2.length+1) × (str1.length+1)` matrix row by row, each row computed from
the previous row and the entry just written to its left; the embedding passes
the previous row explicitly and returns `matrix[str2.length][str1.length]`. -/

/-- Classic recursive Levenshtein edit distance (the mathematical
specification the DP matrix tabulates). -/
def levRec : Str → Str → Nat
  | [], ys => ys.length
  | xs, [] => xs.length
  | x :: xs, y :: ys =>
    if x = y then levRec xs ys
    else 1 + min (levRec xs ys) (min (levRec (x :: xs) ys) (levRec xs (y :: ys)))
termination_by xs ys => xs.length + ys.length

@[simp] theorem levRec_nil_left (ys : Str) : levRec [] ys = ys.length := by
  cases ys <;> simp [levRec]

@[simp] theorem levRec_nil_right (xs : Str) : levRec xs [] = xs.length := by
  cases xs <;> simp [levRec]

theorem levRec_cons_cons (x y : Char) (xs ys : Str) :
    levRec (x :: xs) (y :: ys) =
      if x = y then levRec xs ys
      else 1 + min (levRec xs ys) (min (levRec (x :: xs) ys) (levRec xs (y :: ys))) := by
  rw [levRec]

/-- Inner loop of the source's `levenshteinDistance`: computes the remainder
of row `i` of the matrix, walking the rest of `str1`.  `left` is the matrix
entry just written (`matrix[i][j-1]`), and the third argument is the tail of
the previous row starting at `matrix[i-1][j-1]`. -/
def levRowStep (c2 : Char) : Str → Nat → List Nat → List Nat
  | [], _, _ => []
  | c1 :: cs, left, diag :: up :: rest =>
    let v := if c2 = c1 then diag
             else min (diag + 1) (min (left + 1) (up + 1))
    v :: levRowStep c2 cs v (up :: rest)
  | _ :: _, _, [] => []
  | _ :: _, _, [_] => []

/-- One outer-loop iteration of the source's `levenshteinDistance`: builds
matrix row `i` from row `i-1` (`prev`).  `matrix[i][0] = i = prev[0] + 1`. -/
def levNextRow (str1 : Str) (c2 : Char) (prev : List Nat) : List Nat :=
  match prev with
  | [] => []
  | p0 :: _ => (p0 + 1) :: levRowStep c2 str1 (p0 + 1) prev

/-- The final matrix row of the source's `levenshteinDistance`; row `0` is
`[0, 1, …, str1.length]` and each character of `str2` produces the next
row. -/
def levFinalRow (str1 str2 : Str) : List Nat :=
  str2.foldl (fun prev c2 => levNextRow str1 c2 prev) (List.range (str1.length + 1))

/-- Embedding of `levenshteinDistance(str1, str2)`: the entry
`matrix[str2.length][str1.length]` of the DP matrix. -/
def levenshteinDistance (str1 str2 : Str) : Nat :=
  (levFinalRow str1 str2).getD str1.length 0

/-- Specification of a row segment: entry `j` of matrix row `i` is the edit
distance between the reversed processed prefix of `str2` and the reversed
`j`-prefix of `str1`.  `specRow u acc cs` lists those values as the walk over
`str1` continues with `cs`, `acc` being the reversed consumed part. -/
def specRow (u : Str) : Str → Str → List Nat
  | _, [] => []
  | acc, c :: cs => levRec u (c :: acc) :: specRow u (c :: acc) cs

theorem levRowStep_spec (c2 : Char) (u : Str) :
    ∀ (cs acc : Str),
      levRowStep c2 cs (levRec (c2 :: u) acc)
          (levRec u acc :: specRow u acc cs) =
        specRow (c2 :: u) acc cs := by
  intro cs
  induction cs with
  | nil => intro acc; rfl
  | cons c cs ih =>
    intro acc
    show (if c2 = c then levRec u acc
          else min (levRec u acc + 1)
            (min (levRec (c2 :: u) acc + 1) (levRec u (c :: acc) + 1))) ::
        levRowStep c2 cs _ (levRec u (c :: acc) :: specRow u (c :: acc) cs) =
      levRec (c2 :: u) (c :: acc) :: specRow (c2 :: u) (c :: acc) cs
    have hv : (if c2 = c then levRec u acc
          else min (levRec u acc + 1)
            (min (levRec (c2 :: u) acc + 1) (levRec u (c :: acc) + 1))) =
        levRec (c2 :: u) (c :: acc) := by
      rw [levRec_cons_cons]
      split <;> omega
    rw [hv, ih (c :: acc)]

theorem levNextRow_spec (str1 : Str) (c2 : Char) (u : Str) :
    levNextRow str1 c2 (levRec u [] :: specRow u [] str1) =
      levRec (c2 :: u) [] :: specRow (c2 :: u) [] str1 := by
  show (levRec u [] + 1) :: levRowStep c2 str1 (levRec u [] + 1)
      (levRec u [] :: specRow u [] str1) = _
  have h1 : levRec u [] + 1 = levRec (c2 :: u) [] := by simp
  rw [h1, levRowStep_spec]

theorem specRow_nil_u : ∀ (cs acc : Str),
    specRow [] acc cs = List.range' (acc.length + 1) cs.length := by
  intro cs
  induction cs with
  | nil => intro acc; rfl
  | cons c cs ih =>
    intro acc
    show levRec [] (c :: acc) :: specRow [] (c :: acc) cs = _
    rw [ih (c :: acc)]
    simp [List.range'_succ]

theorem range_eq_row (str1 : Str) :
    List.range (str1.length + 1) = levRec [] [] :: specRow [] [] str1 := by
  rw [specRow_nil_u]
  simp only [levRec_nil_left, List.length_nil]
  rw [List.range_eq_range', List.range'_succ]

theorem levFinalRow_spec (str1 str2 : Str) :
    levFinalRow str1 str2 =
      levRec str2.reverse [] :: specRow str2.reverse [] str1 := by
  unfold levFinalRow
  rw [range_eq_row]
  suffices h : ∀ (s2 : Str) (u : Str),
      s2.foldl (fun prev c2 => levNextRow str1 c2 prev)
          (levRec u [] :: specRow u [] str1) =
        levRec (s2.reverse ++ u) [] :: specRow (s2.reverse ++ u) [] str1 by
    simpa using h str2 []
  intro s2
  induction s2 with
  | nil => intro u; rfl
  | cons c s2 ih =>
    intro u
    show (s2.foldl (fun prev c2 => levNextRow str1 c2 prev)
        (levNextRow str1 c (levRec u [] :: specRow u [] str1))) = _
    rw [levNextRow_spec, ih (c :: u)]
    simp

theorem getD_specRow (u : Str) :
    ∀ (cs acc : Str) (x : Nat), (x = levRec u acc) →
      (x :: specRow u acc cs).getD cs.length 0 = levRec u (cs.reverse ++ acc) := by
  intro cs
  induction cs with
  | nil => intro acc x hx; simpa using hx
  | cons c cs ih =>
    intro acc x hx
    show (specRow u acc (c :: cs)).getD cs.length 0 = _
    show (levRec u (c :: acc) :: specRow u (c :: acc) cs).getD cs.length 0 = _
    rw [ih (c :: acc) _ rfl]
    simp

/-- The DP matrix of the source computes the edit distance of the reversed
strings (entry `[i][j]` is the distance between the reversed prefixes). -/
theorem levenshteinDistance_eq_rev (str1 str2 : Str) :
    levenshteinDistance str1 str2 = levRec str2.reverse str1.reverse := by
  unfold levenshteinDistance
  rw [levFinalRow_spec]
  have h := getD_specRow str2.reverse str1 [] _ rfl
  simpa using h

theorem min3_succ (a b c : Nat) :
    min (1 + a) (min (1 + b) (1 + c)) = 1 + min a (min b c) := by
  omega

theorem min_grid (n1 n2 n3 n4 n5 n6 n7 n8 n9 : Nat) :
    1 + min (1 + min n1 (min n2 n3))
      (min (1 + min n4 (min n5 n6)) (1 + min n7 (min n8 n9))) =
    1 + min (1 + min n1 (min n4 n7))
      (min (1 + min n2 (min n5 n8)) (1 + min n3 (min n6 n9))) := by
  rw [min3_succ, min3_succ]
  have h : min (min n1 (min n2 n3)) (min (min n4 (min n5 n6)) (min n7 (min n8 n9))) =
      min (min n1 (min n4 n7)) (min (min n2 (min n5 n8)) (min n3 (min n6 n9))) := by
    ac_rfl
  rw [h]

theorem levRec_snoc_aux (a b : Char) :
    ∀ (n : Nat) (xs ys : Str), xs.length + ys.length ≤ n →
      levRec (xs ++ [a]) (ys ++ [b]) =
        if a = b then levRec xs ys
        else 1 + min (levRec xs ys)
          (min (levRec (xs ++ [a]) ys) (levRec xs (ys ++ [b]))) := by
  intro n
  induction n with
  | zero =>
    intro xs ys h
    have hx : xs = [] := by
      cases xs with
      | nil => rfl
      | cons z zs => simp at h
    have hy : ys = [] := by
      cases ys with
      | nil => rfl
      | cons z zs => simp at h
    subst hx; subst hy
    simp only [List.nil_append, levRec_cons_cons]
  | succ n ih =>
    intro xs ys h
    cases xs with
    | nil =>
      cases ys with
      | nil => simp only [List.nil_append, levRec_cons_cons]
      | cons y t =>
        have hIH := ih [] t (by simp at h ⊢; omega)
        simp only [List.nil_append] at hIH
        simp only [List.nil_append, List.cons_append]
        rw [levRec_cons_cons a y [] (t ++ [b]), levRec_cons_cons a y [] t, hIH]
        simp only [levRec_nil_left, List.length_append, List.length_cons,
          List.length_nil]
        split_ifs <;> omega
    | cons x s =>
      cases ys with
      | nil =>
        have hIH := ih s [] (by simp at h ⊢; omega)
        simp only [List.nil_append] at hIH
        simp only [List.nil_append, List.cons_append]
        rw [levRec_cons_cons x b (s ++ [a]) [], levRec_cons_cons x b s [], hIH]
        simp only [levRec_nil_right, List.length_append, List.length_cons,
          List.length_nil]
        split_ifs <;> omega
      | cons y t =>
        have hlen : s.length + t.length + 2 ≤ n + 1 := by simp at h; omega
        have hA := ih s t (by omega)
        have hB := ih (x :: s) t (by simp; omega)
        have hC := ih s (y :: t) (by simp; omega)
        simp only [List.cons_append] at hB hC ⊢
        simp only [levRec_cons_cons]
        rw [hA, hB, hC]
        split_ifs <;> first | rfl | apply min_grid

/-- Appending one character to the end of each string satisfies the same
recurrence as prepending (the "snoc" form of the Levenshtein recursion). -/
theorem levRec_snoc (xs ys : Str) (a b : Char) :
    levRec (xs ++ [a]) (ys ++ [b]) =
      if a = b then levRec xs ys
      else 1 + min (levRec xs ys)
        (min (levRec (xs ++ [a]) ys) (levRec xs (ys ++ [b]))) :=
  levRec_snoc_aux a b (xs.length + ys.length) xs ys le_rfl

theorem levRec_reverse_aux :
    ∀ (n : Nat) (xs ys : Str), xs.length + ys.length ≤ n →
      levRec xs.reverse ys.reverse = levRec xs ys := by
  intro n
  induction n with
  | zero =>
    intro xs ys h
    have hx : xs = [] := by
      cases xs with
      | nil => rfl
      | cons z zs => simp at h
    have hy : ys = [] := by
      cases ys with
      | nil => rfl
      | cons z zs => simp at h
    subst hx; subst hy; rfl
  | succ n ih =>
    intro xs ys h
    cases xs with
    | nil => simp
    | cons x s =>
      cases ys with
      | nil => simp
      | cons y t =>
        have hlen : s.length + t.length + 2 ≤ n + 1 := by simp at h; omega
        rw [List.reverse_cons, List.reverse_cons, levRec_snoc,
          ← List.reverse_cons x s, ← List.reverse_cons y t,
          ih s t (by omega), ih (x :: s) t (by simp; omega),
          ih s (y :: t) (by simp; omega), levRec_cons_cons]

/-- Levenshtein distance is invariant under reversing both strings. -/
theorem levRec_reverse (xs ys : Str) :
    levRec xs.reverse ys.reverse = levRec xs ys :=
  levRec_reverse_aux (xs.length + ys.length) xs ys le_rfl

theorem levRec_comm_aux :
    ∀ (n : Nat) (xs ys : Str), xs.length + ys.length ≤ n →
      levRec xs ys = levRec ys xs := by
  intro n
  induction n with
  | zero =>
    intro xs ys h
    have hx : xs = [] := by
      cases xs with
      | nil => rfl
      | cons z zs => simp at h
    have hy : ys = [] := by
      cases ys with
      | nil => rfl
      | cons z zs => simp at h
    subst hx; subst hy; rfl
  | succ n ih =>
    intro xs ys h
    cases xs with
    | nil => simp
    | cons x s =>
      cases ys with
      | nil => simp
      | cons y t =>
        have hlen : s.length + t.length + 2 ≤ n + 1 := by simp at h; omega
        rw [levRec_cons_cons, levRec_cons_cons]
        by_cases hxy : x = y
        · simp only [hxy, if_pos rfl]
          exact ih s t (by omega)
        · rw [if_neg hxy, if_neg (fun hyx => hxy hyx.symm),
            ih s t (by omega), ih (x :: s) t (by simp; omega),
            ih s (y :: t) (by simp; omega)]
          omega

/-- Levenshtein distance is symmetric. -/
theorem levRec_comm (xs ys : Str) : levRec xs ys = levRec ys xs :=
  levRec_comm_aux (xs.length + ys.length) xs ys le_rfl

/-- The source's DP `levenshteinDistance` computes exactly the mathematical
Levenshtein edit distance of its two arguments. -/
theorem levenshteinDistance_eq_levRec (str1 str2 : Str) :
    levenshteinDistance str1 str2 = levRec str1 str2 := by
  rw [levenshteinDistance_eq_rev, levRec_reverse, levRec_comm]

/-! ### RelevanceRanker: `fuzzyMatch` and `calculateRelevanceScore`

From `policyService.js`.  The source compares
`(longer.length - editDistance) / longer.length >= 0.7` with IEEE doubles;
for string lengths far below 2^50 that comparison agrees with the exact
rational one, which cross-multiplied over `Int` is
`10 * (longer.length - editDistance) ≥ 7 * longer.length`. -/

/-- Embedding of `fuzzyMatch(str1, str2)` with the default threshold 0.7.
When the lengths are equal the source's ternaries select `str2` as `longer`
and `str1` as `shorter`. -/
def fuzzyMatch (str1 str2 : Str) : Bool :=
  let longer := if str1.length > str2.length then str1 else str2
  let shorter := if str1.length > str2.length then str2 else str1
  if longer.length = 0 then true
  else
    decide ((10 : Int) * ((longer.length : Int) - (levenshteinDistance longer shorter : Int))
      ≥ 7 * (longer.length : Int))

/-- Normalized question as produced by `normalizeQuestion` (keywords, text
and description lower-cased; category taken as is). -/
structure NormalizedQuestion where
  keywords : List Str
  category : Str
  text : Str
  description : Str

/-- Normalized policy as produced by `normalizePolicy` (keywords,
`short_description` and `pdf_name` lower-cased; category taken as is). -/
structure NormalizedPolicy where
  keywords : List Str
  category : Str
  description : Str
  name : Str

/-- Contribution of one (question-keyword, policy-keyword) pair in
`calculateRelevanceScore`: the three `score +=` statements of the inner
`forEach` (substring containment +20, exact equality +30, fuzzy match +15),
written as one sum. -/
def keywordPairScore (qKeyword pKeyword : Str) : Nat :=
  (if containsSub pKeyword qKeyword || containsSub qKeyword pKeyword then 20 else 0) +
  (if pKeyword = qKeyword then 30 else 0) +
  (if fuzzyMatch pKeyword qKeyword then 15 else 0)

/-- Model of `String.prototype.split(' ')`: cut at every single space
character, keeping empty fragments. -/
def splitOnSpace : Str → Str
    → List Str
  | [], cur => [cur.reverse]
  | c :: rest, cur =>
    if c = ' ' then cur.reverse :: splitOnSpace rest []
    else splitOnSpace rest (c :: cur)

/-- Per-keyword description bonus of `calculateRelevanceScore` (+10 when the
policy description contains the question keyword). -/
def descBonus10 (policy : NormalizedPolicy) (keyword : Str) : Nat :=
  if containsSub policy.description keyword then 10 else 0

/-- Per-keyword description-or-name bonus of `calculateRelevanceScore` (+5
when the description or the policy name contains the question keyword). -/
def descOrNameBonus5 (policy : NormalizedPolicy) (keyword : Str) : Nat :=
  if containsSub policy.description keyword || containsSub policy.name keyword then 5 else 0

/-- Per-word question-text bonus of `calculateRelevanceScore` (+3 when the
description contains a question-text word longer than 3 characters). -/
def textWordBonus3 (policy : NormalizedPolicy) (word : Str) : Nat :=
  if containsSub policy.description word then 3 else 0

/-- Embedding of `calculateRelevanceScore(question, policy)`: the running
`score` accumulator is threaded through the same five passes the source
performs. -/
def calculateRelevanceScore (question : NormalizedQuestion) (policy : NormalizedPolicy) : Nat :=
  let score0 := if policy.category = question.category then 50 else 0
  let score1 := question.keywords.foldl (fun sc qKeyword =>
    policy.keywords.foldl (fun sc2 pKeyword => sc2 + keywordPairScore qKeyword pKeyword) sc) score0
  let score2 := question.keywords.foldl (fun sc keyword => sc + descBonus10 policy keyword) score1
  let score3 := question.keywords.foldl (fun sc keyword => sc + descOrNameBonus5 policy keyword) score2
  let questionWords := (splitOnSpace question.text []).filter (fun word => word.length > 3)
  questionWords.foldl (fun sc word => sc + textWordBonus3 policy word) score3

/-- Total of the keyword-pair pass of `calculateRelevanceScore`, started
from `0`. -/
def pairsTotal (qKeywords pKeywords : List Str) : Nat :=
  qKeywords.foldl (fun sc qKeyword =>
    pKeywords.foldl (fun sc2 pKeyword => sc2 + keywordPairScore qKeyword pKeyword) sc) 0

/-- Description-contains bonus pass (+10 per question keyword). -/
def descriptionKeywordBonus (question : NormalizedQuestion) (policy : NormalizedPolicy) : Nat :=
  question.keywords.foldl (fun sc keyword => sc + descBonus10 policy keyword) 0

/-- Description-or-name bonus pass (+5 per question keyword). -/
def descriptionOrNameBonus (question : NormalizedQuestion) (policy : NormalizedPolicy) : Nat :=
  question.keywords.foldl (fun sc keyword => sc + descOrNameBonus5 policy keyword) 0

/-- Question-text-words bonus pass (+3 per qualifying word). -/
def questionTextBonus (question : NormalizedQuestion) (policy : NormalizedPolicy) : Nat :=
  ((splitOnSpace question.text []).filter (fun word => word.length > 3)).foldl
    (fun sc word => sc + textWordBonus3 policy word) 0

theorem foldl_add_shift {α : Type} (f : α → Nat) :
    ∀ (l : List α) (n : Nat),
      l.foldl (fun sc x => sc + f x) n = n + l.foldl (fun sc x => sc + f x) 0 := by
  intro l
  induction l with
  | nil => intro n; simp
  | cons x l ih =>
    intro n
    show List.foldl _ (n + f x) l = n + List.foldl _ (0 + f x) l
    rw [ih (n + f x), ih (0 + f x)]
    omega

theorem foldl_pairs_shift (pKeywords : List Str) :
    ∀ (qKeywords : List Str) (n : Nat),
      qKeywords.foldl (fun sc qKeyword =>
          pKeywords.foldl (fun sc2 pKeyword => sc2 + keywordPairScore qKeyword pKeyword) sc) n
        = n + pairsTotal qKeywords pKeywords := by
  intro qKeywords
  induction qKeywords with
  | nil => intro n; simp [pairsTotal]
  | cons qk qKeywords ih =>
    intro n
    have hpt : pairsTotal (qk :: qKeywords) pKeywords =
        pKeywords.foldl (fun sc2 pKeyword => sc2 + keywordPairScore qk pKeyword) 0
          + pairsTotal qKeywords pKeywords := by
      unfold pairsTotal
      show List.foldl _
          (pKeywords.foldl (fun sc2 pKeyword => sc2 + keywordPairScore qk pKeyword) 0)
          qKeywords = _
      rw [ih (pKeywords.foldl (fun sc2 pKeyword => sc2 + keywordPairScore qk pKeyword) 0)]
      unfold pairsTotal
      rfl
    rw [hpt]
    show List.foldl _
        (pKeywords.foldl (fun sc2 pKeyword => sc2 + keywordPairScore qk pKeyword) n)
        qKeywords = _
    rw [ih (pKeywords.foldl (fun sc2 pKeyword => sc2 + keywordPairScore qk pKeyword) n),
      foldl_add_shift (fun pKeyword => keywordPairScore qk pKeyword) pKeywords n]
    omega

/-- The running score of `calculateRelevanceScore` decomposes into the sum
of its five passes. -/
theorem calculateRelevanceScore_decompose
    (question : NormalizedQuestion) (policy : NormalizedPolicy) :
    calculateRelevanceScore question policy =
      (if policy.category = question.category then 50 else 0)
        + pairsTotal question.keywords policy.keywords
        + descriptionKeywordBonus question policy
        + descriptionOrNameBonus question policy
        + questionTextBonus question policy := by
  unfold calculateRelevanceScore descriptionKeywordBonus descriptionOrNameBonus questionTextBonus
  simp only []
  rw [foldl_pairs_shift,
    foldl_add_shift (descBonus10 policy) question.keywords,
    foldl_add_shift (descOrNameBonus5 policy) question.keywords,
    foldl_add_shift (textWordBonus3 policy)
      ((splitOnSpace question.text []).filter (fun word => word.length > 3))]

/-- Concrete question of claim C2: keywords `privacy` and `security`, no
text and no description, category equal to the policy's. -/
def c2Question : NormalizedQuestion :=
  { keywords := ["privacy".toList, "security".toList]
    category := "Privacy & Security".toList
    text := []
    description := [] }

/-- Concrete policy of claim C2: keywords `privacy` (exact match) and
`secur` (substring of `security`), empty description and name. -/
def c2Policy : NormalizedPolicy :=
  { keywords := ["privacy".toList, "secur".toList]
    category := "Privacy & Security".toList
    description := []
    name := [] }

/-- C2 counterexample: on the instance the claim describes (no
description/name/text bonus applies), `calculateRelevanceScore` returns 135,
not the 120 the claim computes — the exact pair `privacy`/`privacy` also
fires the +15 fuzzy-match bonus, so the keyword-pair contribution is
50 + 20 + 30 + 15 + 20 = 135. -/
theorem C2_counterexample :
    calculateRelevanceScore c2Question c2Policy = 135 ∧
      ¬ calculateRelevanceScore c2Question c2Policy = 120 := by
  decide

/-- C2 (amended): for a question with keywords {`privacy`,`security`}
against a same-category policy with keywords `privacy` and `secur`, the
category+keyword-pair contribution is exactly
50 + (20+30+15 for the exact pair, whose fuzzy bonus also fires) + 20 = 135,
no other keyword-pair bonus fires, and the description/name/text bonuses are
added on top. -/
theorem C2_score_arithmetic (question : NormalizedQuestion) (policy : NormalizedPolicy)
    (hq : question.keywords = ["privacy".toList, "security".toList])
    (hp : policy.keywords = ["privacy".toList, "secur".toList])
    (hcat : policy.category = question.category) :
    calculateRelevanceScore question policy =
      135 + descriptionKeywordBonus question policy
        + descriptionOrNameBonus question policy + questionTextBonus question policy := by
  rw [calculateRelevanceScore_decompose, hq, hp, if_pos hcat]
  have h : pairsTotal ["privacy".toList, "security".toList]
      ["privacy".toList, "secur".toList] = 85 := by decide
  rw [h]

/-- C2 witness: the amended arithmetic applied to the concrete instance. -/
theorem C2_score_arithmetic_witness :
    calculateRelevanceScore c2Question c2Policy =
      135 + descriptionKeywordBonus c2Question c2Policy
        + descriptionOrNameBonus c2Question c2Policy
        + questionTextBonus c2Question c2Policy :=
  C2_score_arithmetic c2Question c2Policy rfl rfl rfl

/-- C3: for non-empty strings, `fuzzyMatch` returns true exactly when
`(longer.length − d) / longer.length ≥ 0.7` holds with `d` the exact
Levenshtein edit distance (`levRec`, proven equal to the source's DP by
`levenshteinDistance_eq_levRec`); in particular similarity exactly 0.7 is a
match and anything below is not. -/
theorem C3_fuzzyMatch_iff (str1 str2 : Str) (h1 : str1 ≠ []) (h2 : str2 ≠ []) :
    fuzzyMatch str1 str2 = true ↔
      (10 : Int) * (((max str1.length str2.length : Nat) : Int) - (levRec str1 str2 : Int)) ≥
        7 * ((max str1.length str2.length : Nat) : Int) := by
  by_cases hgt : str1.length > str2.length
  · have hmax : max str1.length str2.length = str1.length :=
      Nat.max_eq_left (Nat.le_of_lt hgt)
    have hne : ¬ str1.length = 0 := by
      cases str1 with
      | nil => exact absurd rfl h1
      | cons c cs => simp
    simp only [fuzzyMatch, hgt, if_true, if_neg hne, decide_eq_true_eq, hmax,
      levenshteinDistance_eq_levRec]
  · have hmax : max str1.length str2.length = str2.length :=
      Nat.max_eq_right (Nat.le_of_not_lt hgt)
    have hne : ¬ str2.length = 0 := by
      cases str2 with
      | nil => exact absurd rfl h2
      | cons c cs => simp
    simp only [fuzzyMatch, hgt, if_false, if_neg hne, decide_eq_true_eq, hmax,
      levenshteinDistance_eq_levRec, levRec_comm str2 str1]

/-- C3 witness: `abcdefghij` vs `abcdefg` has edit distance 3 and longer
length 10, similarity exactly 0.7, and is a match. -/
theorem C3_fuzzyMatch_witness :
    fuzzyMatch "abcdefghij".toList "abcdefg".toList = true :=
  (C3_fuzzyMatch_iff "abcdefghij".toList "abcdefg".toList
    (by decide) (by decide)).mpr (by
      rw [show levRec "abcdefghij".toList "abcdefg".toList
          = levenshteinDistance "abcdefghij".toList "abcdefg".toList from
        (levenshteinDistance_eq_levRec _ _).symm]
      decide)

/-! ### ReasoningDispatcher: `smartTruncatePolicyText` (geminiService.js) -/

/-- Embedding of `findKeywordPositions(text, keyword)`: the `indexOf` loop
collects every occurrence position, restarting the search one character
after each hit (so overlapping occurrences are found).  Modelled as a linear
scan; it agrees with the source's loop for non-empty keywords (on an empty
keyword the source's loop would never terminate). -/
def findPositionsAux (keyword : Str) : Str → Nat → List Nat
  | [], _ => []
  | t@(_ :: rest), i =>
    (if startsWith t keyword then [i] else []) ++ findPositionsAux keyword rest (i + 1)

/-- All positions at which `keyword` occurs in `text`. -/
def findKeywordPositions (text keyword : Str) : List Nat :=
  findPositionsAux keyword text 0

/-- The `'\n...\n'` separator `smartTruncatePolicyText` joins sections
with. -/
def sectionSep : Str := '\n' :: '.' :: '.' :: '.' :: '\n' :: []

/-- The `'...[truncated]'` marker appended by the fallback branch. -/
def truncMarker : Str := "...[truncated]".toList

/-- One relevant section of `smartTruncatePolicyText`:
`text.substring(Math.max(0, pos − 500), Math.min(text.length, pos + 1500))`
(truncated `Nat` subtraction is exactly `Math.max(0, ·)`). -/
def relevantSection (text : Str) (pos : Nat) : Str :=
  (text.take (min (pos + 1500) text.length)).drop (pos - 500)

/-- Embedding of `smartTruncatePolicyText(text, keywords)`. -/
def smartTruncatePolicyText (text : Str) (keywords : List Str) : Str :=
  let maxLength := 18000
  if text.length ≤ maxLength then text
  else
    let keywordPositions := keywords.foldl (fun acc keyword =>
      acc ++ findKeywordPositions (lowerStr text) (lowerStr keyword)) []
    if 0 < keywordPositions.length then
      let sorted := keywordPositions.mergeSort (fun a b => decide (a ≤ b))
      let relevantSections := sorted.map (relevantSection text)
      let combinedText := List.intercalate sectionSep relevantSections
      if combinedText.length ≤ maxLength then combinedText
      else text.take maxLength ++ truncMarker
    else text.take maxLength ++ truncMarker

/-- Claim C7's description of the truncation (written from the claim's
words): one window per occurrence in ascending position order, but only the
unique windows, concatenated without separator. -/
def smartTruncateClaim (text : Str) (keywords : List Str) : Str :=
  if text.length ≤ 18000 then text
  else
    let positions := (keywords.foldl (fun acc keyword =>
      acc ++ findKeywordPositions (lowerStr text) (lowerStr keyword)) []).mergeSort
        (fun a b => decide (a ≤ b))
    let uniqueWindows := (positions.map (relevantSection text)).dedup
    let combined := uniqueWindows.flatten
    if positions = [] ∨ 18000 < combined.length then text.take 18000 ++ truncMarker
    else combined

/-- Amended C7 behaviour: all windows are kept (duplicates included), in
ascending position order, joined with the `'\n...\n'` separator; the
fallback fires when no keyword occurs or the joined text still exceeds
18000. -/
def smartTruncateAmended (text : Str) (keywords : List Str) : Str :=
  if text.length ≤ 18000 then text
  else
    let positions := (keywords.foldl (fun acc keyword =>
      acc ++ findKeywordPositions (lowerStr text) (lowerStr keyword)) []).mergeSort
        (fun a b => decide (a ≤ b))
    let windows := positions.map (relevantSection text)
    let combined := List.intercalate sectionSep windows
    if positions.length = 0 ∨ 18000 < combined.length then text.take 18000 ++ truncMarker
    else combined

/-- Concrete C7 text: `"ab"` followed by 18000 `'c'`s (length 18002, over
budget). -/
def c7Text : Str := 'a' :: 'b' :: List.replicate 18000 'c'

/-- Concrete C7 keywords: the keyword `"ab"` listed twice; it occurs only at
position 0, so the 2 occurrences produce two identical windows. -/
def c7Keywords : List Str := [['a', 'b'], ['a', 'b']]

theorem findPositionsAux_replicate (kw : Str) (x : Char)
    (h : ∀ t : Str, startsWith (x :: t) kw = false) :
    ∀ (n i : Nat), findPositionsAux kw (List.replicate n x) i = [] := by
  intro n
  induction n with
  | zero => intro i; rfl
  | succ n ih =>
    intro i
    show findPositionsAux kw (x :: List.replicate n x) i = []
    simp only [findPositionsAux]
    rw [h (List.replicate n x)]
    simpa using ih (i + 1)

/-- C7 amended: the source's function agrees with the amended description on
every input. -/
theorem C7_smartTruncate_amended (text : Str) (keywords : List Str) :
    smartTruncatePolicyText text keywords = smartTruncateAmended text keywords := by
  unfold smartTruncatePolicyText smartTruncateAmended
  by_cases hlen : text.length ≤ 18000
  · simp only [if_pos hlen]
  · simp only [if_neg hlen]
    by_cases hpos : 0 < (keywords.foldl (fun acc keyword =>
        acc ++ findKeywordPositions (lowerStr text) (lowerStr keyword)) []).length
    · simp only [if_pos hpos]
      have hlen0 : ¬ ((keywords.foldl (fun acc keyword =>
          acc ++ findKeywordPositions (lowerStr text) (lowerStr keyword)) []).mergeSort
            (fun a b => decide (a ≤ b))).length = 0 := by
        rw [List.length_mergeSort]
        omega
      by_cases hcomb : (List.intercalate sectionSep
          (((keywords.foldl (fun acc keyword =>
            acc ++ findKeywordPositions (lowerStr text) (lowerStr keyword)) []).mergeSort
              (fun a b => decide (a ≤ b))).map (relevantSection text))).length ≤ 18000
      · rw [if_pos hcomb, if_neg]
        push_neg
        exact ⟨hlen0, hcomb⟩
      · rw [if_neg hcomb, if_pos]
        right
        omega
    · simp only [if_neg hpos]
      rw [if_pos]
      left
      rw [List.length_mergeSort]
      omega

/-- C7 counterexample: on `c7Text`/`c7Keywords` the source function returns
the two identical windows joined with the `'\\n...\\n'` separator (length
3005), while the claim's description — unique windows, concatenated —
returns the single window of length 1500. -/
theorem C7_counterexample :
    smartTruncatePolicyText c7Text c7Keywords ≠ smartTruncateClaim c7Text c7Keywords := by
  have hcstart : ∀ t : Str, startsWith ('c' :: t) ['a', 'b'] = false := by
    intro t
    simp only [startsWith]
    rw [show (('c' : Char) == 'a') = false from rfl, Bool.false_and]
  have hbstart : ∀ t : Str, startsWith ('b' :: t) ['a', 'b'] = false := by
    intro t
    simp only [startsWith]
    rw [show (('b' : Char) == 'a') = false from rfl, Bool.false_and]
  have hlow : lowerStr c7Text = c7Text := by
    show lowerStr ('a' :: 'b' :: List.replicate 18000 'c') = _
    simp only [lowerStr, List.map_cons, List.map_replicate]
    rw [show Char.toLower 'a' = 'a' from rfl, show Char.toLower 'b' = 'b' from rfl,
      show Char.toLower 'c' = 'c' from rfl]
    rfl
  have hlowkw : lowerStr ['a', 'b'] = ['a', 'b'] := by
    simp only [lowerStr, List.map_cons, List.map_nil]
    rw [show Char.toLower 'a' = 'a' from rfl, show Char.toLower 'b' = 'b' from rfl]
  have hlen : c7Text.length = 18002 := by
    show (('a' : Char) :: 'b' :: List.replicate 18000 'c').length = 18002
    rw [List.length_cons, List.length_cons, List.length_replicate]
  have hunfold2 : ∀ (t : Str) (i : Nat),
      findPositionsAux ['a', 'b'] ('a' :: 'b' :: t) i =
        (if startsWith ('a' :: 'b' :: t) ['a', 'b'] then [i] else []) ++
          ((if startsWith ('b' :: t) ['a', 'b'] then [i + 1] else []) ++
            findPositionsAux ['a', 'b'] t (i + 1 + 1)) :=
    fun t i => rfl
  have hab : findKeywordPositions c7Text ['a', 'b'] = [0] := by
    show findPositionsAux ['a', 'b'] ('a' :: 'b' :: List.replicate 18000 'c') 0 = [0]
    rw [hunfold2,
      findPositionsAux_replicate ['a', 'b'] 'c' hcstart 18000 (0 + 1 + 1),
      show startsWith ('a' :: 'b' :: List.replicate 18000 'c') ['a', 'b'] = true by
        simp only [startsWith]
        rw [show (('a' : Char) == 'a') = true from rfl,
          show (('b' : Char) == 'b') = true from rfl]
        rfl,
      hbstart (List.replicate 18000 'c')]
    rfl
  have hfold : c7Keywords.foldl (fun acc keyword =>
      acc ++ findKeywordPositions (lowerStr c7Text) (lowerStr keyword)) [] = [0, 0] := by
    show (([] : List Nat) ++ findKeywordPositions (lowerStr c7Text) (lowerStr ['a', 'b']))
        ++ findKeywordPositions (lowerStr c7Text) (lowerStr ['a', 'b']) = [0, 0]
    rw [hlow, hlowkw, hab]
    rfl
  have hsort : ([0, 0] : List Nat).mergeSort (fun a b => decide (a ≤ b)) = [0, 0] :=
    List.mergeSort_of_sorted (by simp)
  have hsec : relevantSection c7Text 0 = c7Text.take 1500 := by
    unfold relevantSection
    rw [hlen, show (0 : Nat) - 500 = 0 from rfl,
      (by omega : min (0 + 1500) 18002 = 1500), List.drop_zero]
  have hwlen : (c7Text.take 1500).length = 1500 := by
    rw [List.length_take, hlen]
    omega
  have hne : ¬ (c7Text.length ≤ 18000) := by omega
  have hcode : smartTruncatePolicyText c7Text c7Keywords =
      c7Text.take 1500 ++ (sectionSep ++ c7Text.take 1500) := by
    unfold smartTruncatePolicyText
    rw [if_neg hne, hfold, if_pos (by decide : 0 < ([0, 0] : List Nat).length), hsort]
    simp only [List.map_cons, List.map_nil, hsec]
    rw [show List.intercalate sectionSep [c7Text.take 1500, c7Text.take 1500] =
        c7Text.take 1500 ++ (sectionSep ++ c7Text.take 1500) by
      simp [List.intercalate, List.intersperse]]
    rw [if_pos]
    simp only [List.length_append, hwlen]
    rw [show sectionSep.length = 5 from rfl]
    omega
  have hclaim : smartTruncateClaim c7Text c7Keywords = c7Text.take 1500 := by
    unfold smartTruncateClaim
    rw [if_neg hne, hfold, hsort]
    simp only [List.map_cons, List.map_nil, hsec]
    rw [show ([c7Text.take 1500, c7Text.take 1500] : List Str).dedup = [c7Text.take 1500] by
      rw [List.dedup_cons_of_mem (by simp [List.dedup_cons_of_not_mem])]
      simp [List.dedup_cons_of_not_mem]]
    rw [List.flatten, List.flatten, List.append_nil]
    rw [if_neg]
    push_neg
    refine ⟨by simp, ?_⟩
    rw [hwlen]
    omega
  rw [hcode, hclaim]
  intro heq
  have hl := congrArg List.length heq
  simp only [List.length_append, hwlen] at hl
  rw [show sectionSep.length = 5 from rfl] at hl
  omega

/-! ### ContentStore: descriptor-to-file matching (driveService.js,
`batchFindPolicyFiles`) -/

/-- A file entry as returned by the folder listing
(`files(id, name, size)`; size unused by the matcher). -/
structure DriveFile where
  id : Str
  name : Str
deriving DecidableEq

/-- The match predicate of `batchFindPolicyFiles`:
`file.name.toLowerCase().includes(req.policyName.toLowerCase()) ||
 req.policyName.toLowerCase().includes(file.name.toLowerCase().split('.')[0])`.
Note the first direction uses the FULL descriptor name (extension included)
and the second strips the extension from the LISTED name (the part before
its first dot). -/
def policyFileMatches (policyName : Str) (file : DriveFile) : Bool :=
  containsSub (lowerStr file.name) (lowerStr policyName) ||
  containsSub (lowerStr policyName) ((lowerStr file.name).takeWhile (fun c => !(c == '.')))

/-- The `allFiles.find(...)` of `batchFindPolicyFiles`: the first listed
file matching the descriptor, or none (`matchingFile || null`). -/
def findMatchingFile (policyName : Str) (files : List DriveFile) : Option DriveFile :=
  files.find? (policyFileMatches policyName)

/-- One descriptor of a `batchFindPolicyFiles` call. -/
structure PolicyRequest where
  policyName : Str
  subfolderId : Str

/-- Embedding of `batchFindPolicyFiles`: descriptors are grouped per folder
only to share one listing call; each descriptor's result is the first match
in its folder's listing (the whole-folder failure branch, which resolves
every descriptor of the folder to none, is the `listing` returning `[]`). -/
def batchFindPolicyFiles (listing : Str → List DriveFile)
    (requests : List PolicyRequest) : List ((Str × Str) × Option DriveFile) :=
  requests.map (fun req =>
    ((req.subfolderId, req.policyName),
      findMatchingFile req.policyName (listing req.subfolderId)))

/-- Claim C8's matcher, from the claim's words: strip the extension from the
DESCRIPTOR name (the part before its last dot) and compare it with the full
listed name, case-insensitively, in either direction. -/
def stripExtension (name : Str) : Str :=
  if name.any (fun c => c == '.') then
    ((name.reverse.dropWhile (fun c => !(c == '.'))).drop 1).reverse
  else name

/-- Either-direction containment between the descriptor name without its
extension and the listed file name (claim C8's predicate). -/
def claimMatches (policyName : Str) (file : DriveFile) : Bool :=
  containsSub (lowerStr file.name) (lowerStr (stripExtension policyName)) ||
  containsSub (lowerStr (stripExtension policyName)) (lowerStr file.name)

/-- Concrete C8 file list: one listed file named `privacy`. -/
def c8File : DriveFile := { id := "f1".toList, name := "privacy".toList }

/-- C8 counterexample: descriptor `priv.pdf` against listing [`privacy`].
Under the claim's predicate (`priv` vs `privacy`) the file matches; the
source's predicate (`privacy` vs full `priv.pdf`, and `priv.pdf` vs
`privacy`) matches nothing, so `batchFindPolicyFiles` resolves the
descriptor to none. -/
theorem C8_counterexample :
    findMatchingFile "priv.pdf".toList [c8File] = none ∧
      [c8File].find? (claimMatches "priv.pdf".toList) = some c8File := by
  decide

/-- C8 (amended): in `batchFindPolicyFiles` a descriptor resolves to exactly
the first listed file whose lowercased name contains the full descriptor
name, or whose name's part before its first dot is contained in the
descriptor name (both lowercased); it resolves to none exactly when no
listed file satisfies that predicate. -/
theorem C8_first_match_resolution (policyName : Str) (files : List DriveFile) :
    (∀ f : DriveFile,
      findMatchingFile policyName files = some f ↔
        policyFileMatches policyName f = true ∧
          ∃ pre post, files = pre ++ f :: post ∧
            ∀ g ∈ pre, policyFileMatches policyName g = false) ∧
    (findMatchingFile policyName files = none ↔
      ∀ f ∈ files, policyFileMatches policyName f = false) := by
  constructor
  · intro f
    unfold findMatchingFile
    rw [List.find?_eq_some]
    simp only [Bool.not_eq_true']
  · unfold findMatchingFile
    rw [List.find?_eq_none]
    simp only [Bool.not_eq_true]

/-! ### BatchOrchestrator (process.controller.js, `ParallelProcessor`)

Asynchronous structure is modelled by explicit outcome parameters: the
settled result of one policy-analysis promise is a `PolicyOutcome`
(`.error` = the promise rejected, `.ok none` = fulfilled with `null`,
`.ok (some e)` = fulfilled with evidence), and a whole question task is
`.ok outcomes` (the task fulfilled after recording all its policy results)
or `.error seenOutcomes` (the task rejected; the policy results already
recorded before the failure keep their stats effects). -/

/-- The source's `answer` values `yes`/`no`/`partial` (`mixed` stands for
the third value, whose JS name is a reserved word here). -/
inductive AnswerKind where
  | yes
  | no
  | mixed
deriving DecidableEq

/-- The source's `confidence` values. -/
inductive Confidence where
  | high
  | medium
  | low
deriving DecidableEq

/-- An evidence candidate as built by `searchForComplianceEvidence`. -/
structure Evidence where
  docName : Str
  subfolder : Str
  answer : AnswerKind
  evidence : Str
  pageReference : Option Str
  confidence : Confidence
  explanation : Str
  score : Nat
deriving DecidableEq

/-- A question; only the stable id matters to the orchestrator. -/
structure Question where
  id : Nat
  text : Str
deriving DecidableEq

/-- Settled result of one policy-analysis promise. -/
abbrev PolicyOutcome := Except Unit (Option Evidence)

/-- The `processingStats` record. -/
structure ProcessingStats where
  totalQuestions : Nat
  questionsProcessed : Nat
  totalPoliciesChecked : Nat
  evidenceFound : Nat
  compliantAnswers : Nat
  nonCompliantAnswers : Nat
  cacheHits : Nat
  downloadTime : Nat
  analysisTime : Nat
deriving DecidableEq

/-- The stats object `processQuestionsInParallel` initialises. -/
def initStats (totalQuestions : Nat) : ProcessingStats :=
  { totalQuestions := totalQuestions
    questionsProcessed := 0
    totalPoliciesChecked := 0
    evidenceFound := 0
    compliantAnswers := 0
    nonCompliantAnswers := 0
    cacheHits := 0
    downloadTime := 0
    analysisTime := 0 }

/-- Embedding of `createBatches(array, batchSize)`: slices of `batchSize`
consecutive elements.  (With `batchSize = 0` the source's loop would never
terminate; the callers use 2, 3, 5 and 8.) -/
def createBatches {α : Type} (array : List α) (batchSize : Nat) : List (List α) :=
  match array, batchSize with
  | [], _ => []
  | _ :: _, 0 => []
  | x :: xs, n + 1 =>
    (x :: xs).take (n + 1) :: createBatches ((x :: xs).drop (n + 1)) (n + 1)
termination_by array.length
decreasing_by
  simp only [List.length_drop, List.length_cons]
  omega

theorem createBatches_flatten_aux {α : Type} (m : Nat) :
    ∀ (k : Nat) (l : List α), l.length ≤ k → (createBatches l (m + 1)).flatten = l := by
  intro k
  induction k with
  | zero =>
    intro l hl
    cases l with
    | nil => rw [createBatches]; rfl
    | cons x xs => simp at hl
  | succ k ih =>
    intro l hl
    cases l with
    | nil => rw [createBatches]; rfl
    | cons x xs =>
      rw [createBatches, List.flatten_cons,
        ih ((x :: xs).drop (m + 1)) (by simp at hl ⊢; omega), List.take_append_drop]

/-- The batches of `createBatches` concatenate back to the input. -/
theorem createBatches_flatten {α : Type} (n : Nat) (hn : 0 < n) (l : List α) :
    (createBatches l n).flatten = l := by
  obtain ⟨m, rfl⟩ : ∃ m, n = m + 1 := ⟨n - 1, by omega⟩
  exact createBatches_flatten_aux m l.length l le_rfl

/-- Folding batch-by-batch is folding the whole input. -/
theorem foldl_batches {α β : Type} (f : β → α → β) (n : Nat) (hn : 0 < n)
    (l : List α) (init : β) :
    (createBatches l n).foldl (fun acc batch => batch.foldl f acc) init = l.foldl f init := by
  rw [← List.foldl_flatten, createBatches_flatten n hn]

/-- `confidenceOrder` of the candidate comparator. -/
def confidenceOrder : Confidence → Nat
  | .high => 3
  | .medium => 2
  | .low => 1

/-- `answerOrder` of the candidate comparator. -/
def answerOrder : AnswerKind → Nat
  | .yes => 3
  | .no => 2
  | .mixed => 1

/-- The comparator passed to `candidates.sort`: confidence difference, then
answer difference, then score difference (all `b − a`, i.e. descending). -/
def candidateCompare (a b : Evidence) : Int :=
  let confDiff : Int := (confidenceOrder b.confidence : Int) - (confidenceOrder a.confidence : Int)
  if confDiff ≠ 0 then confDiff
  else
    let answerDiff : Int := (answerOrder b.answer : Int) - (answerOrder a.answer : Int)
    if answerDiff ≠ 0 then answerDiff
    else (b.score : Int) - (a.score : Int)

/-- `a` may precede `b` under the comparator (comparator value ≤ 0).  An
ECMAScript `Array.prototype.sort` with a consistent comparator produces a
stable order under exactly this relation, modelled by `List.mergeSort`. -/
def candidateLE (a b : Evidence) : Bool :=
  decide (candidateCompare a b ≤ 0)

/-- The `candidates.sort(...)` call of `processQuestionParallel`. -/
def sortCandidates (candidates : List Evidence) : List Evidence :=
  candidates.mergeSort candidateLE

/-- The three sort keys of a candidate. -/
def candidateKey (e : Evidence) : Nat × Nat × Nat :=
  (confidenceOrder e.confidence, answerOrder e.answer, e.score)

/-- Descending lexicographic order on the three keys (claim C4's order). -/
def keyGE (a b : Evidence) : Prop :=
  confidenceOrder b.confidence < confidenceOrder a.confidence ∨
    (confidenceOrder a.confidence = confidenceOrder b.confidence ∧
      (answerOrder b.answer < answerOrder a.answer ∨
        (answerOrder a.answer = answerOrder b.answer ∧ b.score ≤ a.score)))

/-- Stats update of the `batchResults.forEach` block of
`processQuestionParallel` for one settled policy analysis: fulfilled
non-null results count as evidence and a checked policy (plus the
compliant/non-compliant counter by answer), fulfilled null results count
only as a checked policy, rejected results change nothing. -/
def recordPolicyResult (stats : ProcessingStats) (result : PolicyOutcome) : ProcessingStats :=
  match result with
  | .ok (some ev) =>
    let stats1 := { stats with
      evidenceFound := stats.evidenceFound + 1
      totalPoliciesChecked := stats.totalPoliciesChecked + 1 }
    match ev.answer with
    | .yes => { stats1 with compliantAnswers := stats1.compliantAnswers + 1 }
    | .no => { stats1 with nonCompliantAnswers := stats1.nonCompliantAnswers + 1 }
    | .mixed => stats1
  | .ok none => { stats with totalPoliciesChecked := stats.totalPoliciesChecked + 1 }
  | .error _ => stats

/-- The candidates pushed by the same `forEach` block (fulfilled non-null
results, in settlement order). -/
def collectCandidates (results : List PolicyOutcome) : List Evidence :=
  results.filterMap (fun r =>
    match r with
    | .ok (some ev) => some ev
    | .ok none => none
    | .error _ => none)

/-- The stats at the end of `processQuestionParallel`, after its per-batch
loop over batches of `maxConcurrentPolicies = 5`. -/
def questionStats (outcomes : List PolicyOutcome) (stats : ProcessingStats) : ProcessingStats :=
  (createBatches outcomes 5).foldl (fun st batch => batch.foldl recordPolicyResult st) stats

/-- The candidates accumulated across the policy batches, in encounter
order. -/
def rawCandidates (outcomes : List PolicyOutcome) : List Evidence :=
  (createBatches outcomes 5).foldl (fun acc batch => acc ++ collectCandidates batch) []

/-- The sorted candidate list `processQuestionParallel` returns. -/
def questionCandidates (outcomes : List PolicyOutcome) : List Evidence :=
  sortCandidates (rawCandidates outcomes)

/-- Embedding of `processQuestionParallel`, parameterised by the settled
outcome of each analysed policy: returns the sorted candidates and the
updated stats. -/
def processQuestionParallel (outcomes : List PolicyOutcome) (stats : ProcessingStats) :
    List Evidence × ProcessingStats :=
  (questionCandidates outcomes, questionStats outcomes stats)

/-- Behaviour of one question task: fulfilled with its policy outcomes, or
rejected after having recorded a prefix of them. -/
abbrev QuestionBehavior := Question → Except (List PolicyOutcome) (List PolicyOutcome)

/-- `evidenceByQuestion[question.id] = value` (JS object assignment:
last write wins). -/
def assignEvidence (m : Nat → Option (List Evidence)) (id : Nat) (v : List Evidence) :
    Nat → Option (List Evidence) :=
  fun key => if key = id then some v else m key

/-- Settling one question in `processQuestionsInParallel`'s
`batchResults.forEach`: a fulfilled task stores its value, a rejected task
stores `[]`; `questionsProcessed` is incremented either way. -/
def runQuestion (behavior : QuestionBehavior) (q : Question)
    (acc : (Nat → Option (List Evidence)) × ProcessingStats) :
    (Nat → Option (List Evidence)) × ProcessingStats :=
  match behavior q with
  | .ok outcomes =>
    let stats1 := questionStats outcomes acc.2
    (assignEvidence acc.1 q.id (questionCandidates outcomes),
      { stats1 with questionsProcessed := stats1.questionsProcessed + 1 })
  | .error seenOutcomes =>
    let stats1 := questionStats seenOutcomes acc.2
    (assignEvidence acc.1 q.id [],
      { stats1 with questionsProcessed := stats1.questionsProcessed + 1 })

/-- Embedding of `processQuestionsInParallel(questions, policyIndex)`:
question batches of `maxConcurrentQuestions = 3` settle in order; the
result is the evidence map and the final stats. -/
def processQuestionsInParallel (behavior : QuestionBehavior) (questions : List Question) :
    (Nat → Option (List Evidence)) × ProcessingStats :=
  (createBatches questions 3).foldl
    (fun acc batch => batch.foldl (fun a q => runQuestion behavior q a) acc)
    ((fun _ => none), initStats questions.length)

theorem candidateLE_iff (a b : Evidence) : candidateLE a b = true ↔ keyGE a b := by
  unfold candidateLE candidateCompare keyGE
  rw [decide_eq_true_eq]
  dsimp only
  split_ifs with h1 h2 <;> omega

theorem candidateLE_trans (a b c : Evidence) :
    candidateLE a b → candidateLE b c → candidateLE a c := by
  intro hab hbc
  rw [candidateLE_iff] at hab hbc ⊢
  unfold keyGE at hab hbc ⊢
  omega

theorem candidateLE_total (a b : Evidence) : candidateLE a b || candidateLE b a := by
  rw [Bool.or_eq_true, candidateLE_iff, candidateLE_iff]
  unfold keyGE
  omega

theorem candidateKey_eq_le {a b : Evidence} (h : candidateKey a = candidateKey b) :
    candidateLE a b = true := by
  unfold candidateKey at h
  rw [candidateLE_iff]
  unfold keyGE
  have h1 := congrArg Prod.fst h
  have h2 := congrArg (fun p => p.2.1) h
  have h3 := congrArg (fun p => p.2.2) h
  simp at h1 h2 h3
  omega

/-- The candidates accumulated batch-by-batch are the fulfilled non-null
outcomes in settlement order. -/
theorem rawCandidates_eq (outcomes : List PolicyOutcome) :
    rawCandidates outcomes = collectCandidates outcomes := by
  unfold rawCandidates
  have h : ∀ (batches : List (List PolicyOutcome)) (acc : List Evidence),
      batches.foldl (fun acc batch => acc ++ collectCandidates batch) acc
        = acc ++ collectCandidates batches.flatten := by
    intro batches
    induction batches with
    | nil => intro acc; simp [collectCandidates]
    | cons b bs ih =>
      intro acc
      rw [List.foldl_cons, ih, List.flatten_cons]
      unfold collectCandidates
      rw [List.filterMap_append, List.append_assoc]
  rw [h, createBatches_flatten 5 (by omega), List.nil_append]

/-- C4: the candidate list `processQuestionParallel` returns is sorted
descending by confidence rank, then answer rank, then score; it is a
permutation of the candidates in encounter order; and candidates with equal
keys keep their encounter order (stability, stated as filter equality over
every key value). -/
theorem C4_candidates_sorted_stable (outcomes : List PolicyOutcome) (stats : ProcessingStats) :
    ((processQuestionParallel outcomes stats).1.Pairwise keyGE) ∧
    ((processQuestionParallel outcomes stats).1.Perm (collectCandidates outcomes)) ∧
    (∀ k : Nat × Nat × Nat,
      (processQuestionParallel outcomes stats).1.filter (fun e => decide (candidateKey e = k)) =
        (collectCandidates outcomes).filter (fun e => decide (candidateKey e = k))) := by
  have hres : (processQuestionParallel outcomes stats).1
      = (collectCandidates outcomes).mergeSort candidateLE := by
    show questionCandidates outcomes = _
    unfold questionCandidates sortCandidates
    rw [rawCandidates_eq]
  have htrans : ∀ (a b c : Evidence), candidateLE a b → candidateLE b c → candidateLE a c :=
    candidateLE_trans
  have htotal : ∀ (a b : Evidence), candidateLE a b || candidateLE b a := candidateLE_total
  refine ⟨?_, ?_, ?_⟩
  · rw [hres]
    exact (List.sorted_mergeSort htrans htotal (collectCandidates outcomes)).imp
      (fun h => (candidateLE_iff _ _).mp h)
  · rw [hres]
    exact List.mergeSort_perm (collectCandidates outcomes) candidateLE
  · intro k
    rw [hres]
    set p : Evidence → Bool := fun e => decide (candidateKey e = k) with hp
    set raw := collectCandidates outcomes with hraw
    have hkp : ∀ e ∈ raw.filter p, candidateKey e = k := by
      intro e he
      have := List.of_mem_filter he
      rw [hp] at this
      exact of_decide_eq_true this
    have hpw : (raw.filter p).Pairwise (fun a b => candidateLE a b = true) := by
      apply List.pairwise_of_forall_mem_list
      intro a ha b hb
      exact candidateKey_eq_le ((hkp a ha).trans (hkp b hb).symm)
    have hsub : List.Sublist (raw.filter p) (raw.mergeSort candidateLE) :=
      List.sublist_mergeSort htrans htotal hpw (List.filter_sublist raw)
    have hsub2 : List.Sublist (raw.filter p) ((raw.mergeSort candidateLE).filter p) := by
      have := hsub.filter p
      rwa [List.filter_filter, show (fun a => p a && p a) = p from by
        funext a; cases hpa : p a <;> simp [hpa]] at this
    have hperm : ((raw.mergeSort candidateLE).filter p).Perm (raw.filter p) :=
      (List.mergeSort_perm raw candidateLE).filter p
    exact (hsub2.eq_of_length hperm.length_eq.symm).symm

/-- The evidence entry a settled question task produces: its sorted
candidates when fulfilled, `[]` when rejected. -/
def questionEvidence (behavior : QuestionBehavior) (q : Question) : List Evidence :=
  match behavior q with
  | .ok outcomes => questionCandidates outcomes
  | .error _ => []

theorem fold_run_untouched (behavior : QuestionBehavior) :
    ∀ (questions : List Question) (acc : (Nat → Option (List Evidence)) × ProcessingStats)
      (id : Nat), id ∉ questions.map Question.id →
      (questions.foldl (fun a q => runQuestion behavior q a) acc).1 id = acc.1 id := by
  intro questions
  induction questions with
  | nil => intro acc id hid; rfl
  | cons q rest ih =>
    intro acc id hid
    have hid2 : id ∉ rest.map Question.id := by
      intro hmem
      exact hid (by simp only [List.map_cons, List.mem_cons]; right; exact hmem)
    have hne : id ≠ q.id := by
      intro h
      exact hid (by simp [h])
    rw [List.foldl_cons, ih _ id hid2]
    unfold runQuestion
    cases behavior q <;> simp [assignEvidence, hne]

theorem fold_run_lookup (behavior : QuestionBehavior) :
    ∀ (questions : List Question) (acc : (Nat → Option (List Evidence)) × ProcessingStats),
      (questions.map Question.id).Nodup →
      ∀ q ∈ questions,
        (questions.foldl (fun a q' => runQuestion behavior q' a) acc).1 q.id =
          some (questionEvidence behavior q) := by
  intro questions
  induction questions with
  | nil => intro acc hnodup q hq; simp at hq
  | cons q0 rest ih =>
    intro acc hnodup q hq
    rw [List.map_cons, List.nodup_cons] at hnodup
    rw [List.foldl_cons]
    rcases List.mem_cons.mp hq with rfl | hmem
    · rw [fold_run_untouched behavior rest _ q.id hnodup.1]
      unfold runQuestion questionEvidence
      cases behavior q <;> simp [assignEvidence]
    · exact ih _ hnodup.2 q hmem

/-- C1: settle-all isolation of `processQuestionsInParallel`.  For every
question of the run — whatever the outcomes of the other questions,
including rejections — the returned evidence map holds exactly that
question's own settled value: its computed candidate list when its task
fulfilled, and `[]` when its task rejected.  The function is total, so no
per-question failure escapes it. -/
theorem C1_settle_all_isolation (behavior : QuestionBehavior) (questions : List Question)
    (hnodup : (questions.map Question.id).Nodup) (q : Question) (hq : q ∈ questions) :
    (processQuestionsInParallel behavior questions).1 q.id =
      some (questionEvidence behavior q) := by
  unfold processQuestionsInParallel
  rw [foldl_batches (fun a q => runQuestion behavior q a) 3 (by omega)]
  exact fold_run_lookup behavior questions _ hnodup q hq

/-- A concrete evidence value for the C1/C10 witnesses. -/
def evW : Evidence :=
  { docName := "Privacy_p1.pdf".toList
    subfolder := "privacy".toList
    answer := .yes
    evidence := "quote".toList
    pageReference := none
    confidence := .high
    explanation := "why".toList
    score := 120 }

/-- Witness questions with distinct ids. -/
def qW1 : Question := { id := 1, text := "q1".toList }

/-- Second witness question (its task will reject). -/
def qW2 : Question := { id := 2, text := "q2".toList }

/-- Third witness question. -/
def qW3 : Question := { id := 3, text := "q3".toList }

/-- Witness behaviour: question 2's task rejects after one recorded
outcome, the others fulfil with one evidence item. -/
def behW : QuestionBehavior :=
  fun q => if q.id = 2 then .error [.ok none] else .ok [.ok (some evW)]

/-- C1 witness: in the concrete three-question run where question 2's task
rejects, question 2 maps to `[]` and questions 1 and 3 map to their own
computed candidate lists. -/
theorem C1_settle_all_witness :
    (processQuestionsInParallel behW [qW1, qW2, qW3]).1 2 = some [] ∧
    (processQuestionsInParallel behW [qW1, qW2, qW3]).1 1 =
      some (questionCandidates [.ok (some evW)]) ∧
    (processQuestionsInParallel behW [qW1, qW2, qW3]).1 3 =
      some (questionCandidates [.ok (some evW)]) := by
  refine ⟨?_, ?_, ?_⟩
  · have h := C1_settle_all_isolation behW [qW1, qW2, qW3] (by decide) qW2 (by decide)
    simpa [questionEvidence, behW, qW2] using h
  · have h := C1_settle_all_isolation behW [qW1, qW2, qW3] (by decide) qW1 (by decide)
    simpa [questionEvidence, behW, qW1] using h
  · have h := C1_settle_all_isolation behW [qW1, qW2, qW3] (by decide) qW3 (by decide)
    simpa [questionEvidence, behW, qW3] using h

/-! ### C10: stats invariants -/

/-- One atomic stats mutation of the orchestrator: a settled policy
analysis, or the `questionsProcessed++` when a question settles. -/
inductive RunEvent where
  | policyChecked (outcome : PolicyOutcome)
  | questionDone

/-- Effect of one event on the stats. -/
def applyEvent (s : ProcessingStats) : RunEvent → ProcessingStats
  | .policyChecked r => recordPolicyResult s r
  | .questionDone => { s with questionsProcessed := s.questionsProcessed + 1 }

/-- The stats events one question task contributes, in order. -/
def questionEvents (behavior : QuestionBehavior) (q : Question) : List RunEvent :=
  (match behavior q with
   | .ok outcomes => outcomes
   | .error seenOutcomes => seenOutcomes).map RunEvent.policyChecked
    ++ [RunEvent.questionDone]

/-- All stats events of a run, in order. -/
def runEvents (behavior : QuestionBehavior) (questions : List Question) : List RunEvent :=
  (questions.map (questionEvents behavior)).flatten

/-- The counter inequalities of claim C10. -/
def statsInvariant (s : ProcessingStats) : Prop :=
  s.compliantAnswers + s.nonCompliantAnswers ≤ s.evidenceFound ∧
    s.evidenceFound ≤ s.totalPoliciesChecked

theorem statsInvariant_applyEvent {s : ProcessingStats} (h : statsInvariant s)
    (e : RunEvent) : statsInvariant (applyEvent s e) := by
  obtain ⟨h1, h2⟩ := h
  cases e with
  | questionDone => exact ⟨h1, h2⟩
  | policyChecked r =>
    show statsInvariant (recordPolicyResult s r)
    unfold recordPolicyResult
    rcases r with e | ev
    · exact ⟨h1, h2⟩
    · rcases ev with _ | ev
      · exact ⟨h1, by simp; omega⟩
      · rcases hans : ev.answer <;> simp [hans, statsInvariant] <;> omega

theorem statsInvariant_foldl :
    ∀ (events : List RunEvent) (s : ProcessingStats), statsInvariant s →
      statsInvariant (events.foldl applyEvent s) := by
  intro events
  induction events with
  | nil => intro s h; exact h
  | cons e es ih => intro s h; exact ih _ (statsInvariant_applyEvent h e)

theorem questionStats_eq (outcomes : List PolicyOutcome) (s : ProcessingStats) :
    questionStats outcomes s = outcomes.foldl recordPolicyResult s := by
  unfold questionStats
  rw [foldl_batches recordPolicyResult 5 (by omega)]

theorem runQuestion_stats (behavior : QuestionBehavior) (q : Question)
    (acc : (Nat → Option (List Evidence)) × ProcessingStats) :
    (runQuestion behavior q acc).2 =
      (questionEvents behavior q).foldl applyEvent acc.2 := by
  unfold runQuestion questionEvents
  cases behavior q with
  | ok outcomes =>
    dsimp only
    rw [List.foldl_append, List.foldl_map, questionStats_eq]
    rfl
  | error seenOutcomes =>
    dsimp only
    rw [List.foldl_append, List.foldl_map, questionStats_eq]
    rfl

theorem fold_run_stats (behavior : QuestionBehavior) :
    ∀ (questions : List Question) (acc : (Nat → Option (List Evidence)) × ProcessingStats),
      (questions.foldl (fun a q => runQuestion behavior q a) acc).2 =
        (runEvents behavior questions).foldl applyEvent acc.2 := by
  intro questions
  induction questions with
  | nil => intro acc; rfl
  | cons q rest ih =>
    intro acc
    rw [List.foldl_cons, ih]
    unfold runEvents
    rw [List.map_cons, List.flatten_cons, List.foldl_append, runQuestion_stats]

/-- The stats of a run are the fold of its event trace. -/
theorem processQuestions_stats_eq (behavior : QuestionBehavior) (questions : List Question) :
    (processQuestionsInParallel behavior questions).2 =
      (runEvents behavior questions).foldl applyEvent (initStats questions.length) := by
  unfold processQuestionsInParallel
  rw [foldl_batches (fun a q => runQuestion behavior q a) 3 (by omega)]
  exact fold_run_stats behavior questions _

theorem recordPolicyResult_questionsProcessed (s : ProcessingStats) (r : PolicyOutcome) :
    (recordPolicyResult s r).questionsProcessed = s.questionsProcessed := by
  rcases r with e | ev
  · rfl
  · rcases ev with _ | ev
    · rfl
    · unfold recordPolicyResult
      rcases hans : ev.answer <;> simp [hans]

theorem questionStats_questionsProcessed (outcomes : List PolicyOutcome)
    (s : ProcessingStats) :
    (questionStats outcomes s).questionsProcessed = s.questionsProcessed := by
  rw [questionStats_eq]
  induction outcomes generalizing s with
  | nil => rfl
  | cons r rs ih =>
    rw [List.foldl_cons, ih, recordPolicyResult_questionsProcessed]

theorem fold_run_questionsProcessed (behavior : QuestionBehavior) :
    ∀ (questions : List Question) (acc : (Nat → Option (List Evidence)) × ProcessingStats),
      (questions.foldl (fun a q => runQuestion behavior q a) acc).2.questionsProcessed =
        acc.2.questionsProcessed + questions.length := by
  intro questions
  induction questions with
  | nil => intro acc; rfl
  | cons q rest ih =>
    intro acc
    rw [List.foldl_cons, ih]
    have hstep : (runQuestion behavior q acc).2.questionsProcessed =
        acc.2.questionsProcessed + 1 := by
      unfold runQuestion
      cases behavior q with
      | ok outcomes => simpa using questionStats_questionsProcessed outcomes acc.2
      | error seenOutcomes => simpa using questionStats_questionsProcessed seenOutcomes acc.2
    rw [hstep, List.length_cons]
    omega

theorem fold_run_domain (behavior : QuestionBehavior) :
    ∀ (questions : List Question) (acc : (Nat → Option (List Evidence)) × ProcessingStats)
      (id : Nat),
      ((questions.foldl (fun a q => runQuestion behavior q a) acc).1 id).isSome ↔
        ((acc.1 id).isSome ∨ id ∈ questions.map Question.id) := by
  intro questions
  induction questions with
  | nil => intro acc id; simp
  | cons q rest ih =>
    intro acc id
    rw [List.foldl_cons, ih]
    have hstep : (((runQuestion behavior q acc).1 id).isSome) ↔
        ((acc.1 id).isSome ∨ id = q.id) := by
      unfold runQuestion
      by_cases hid : id = q.id
      · cases behavior q <;> simp [assignEvidence, hid]
      · cases behavior q <;> simp [assignEvidence, hid]
    rw [hstep]
    simp only [List.map_cons, List.mem_cons]
    tauto

/-- C10: throughout a run of `processQuestionsInParallel` (after every
atomic stats mutation of its event trace) the counters satisfy
`compliantAnswers + nonCompliantAnswers ≤ evidenceFound ≤
totalPoliciesChecked`; at the end `questionsProcessed` equals the number of
input questions, and the evidence map has exactly one entry per input
question id. -/
theorem C10_stats_invariants (behavior : QuestionBehavior) (questions : List Question) :
    (∀ pre : List RunEvent, pre <+: runEvents behavior questions →
        statsInvariant (pre.foldl applyEvent (initStats questions.length))) ∧
    ((processQuestionsInParallel behavior questions).2.questionsProcessed
      = questions.length) ∧
    (∀ id : Nat, ((processQuestionsInParallel behavior questions).1 id).isSome ↔
        id ∈ questions.map Question.id) := by
  refine ⟨?_, ?_, ?_⟩
  · intro pre hpre
    exact statsInvariant_foldl pre _ ⟨by simp [initStats], by simp [initStats]⟩
  · unfold processQuestionsInParallel
    rw [foldl_batches (fun a q => runQuestion behavior q a) 3 (by omega)]
    rw [fold_run_questionsProcessed]
    simp [initStats]
  · intro id
    unfold processQuestionsInParallel
    rw [foldl_batches (fun a q => runQuestion behavior q a) 3 (by omega)]
    rw [fold_run_domain]
    simp

/-- C10 witness: the invariant instantiated on the concrete three-question
run (whole trace as its own prefix), with the final counters. -/
theorem C10_stats_invariants_witness :
    statsInvariant ((runEvents behW [qW1, qW2, qW3]).foldl applyEvent (initStats 3)) ∧
    (processQuestionsInParallel behW [qW1, qW2, qW3]).2.questionsProcessed = 3 := by
  constructor
  · exact (C10_stats_invariants behW [qW1, qW2, qW3]).1 (runEvents behW [qW1, qW2, qW3])
      ⟨[], List.append_nil _⟩
  · exact (C10_stats_invariants behW [qW1, qW2, qW3]).2.1

/-! ### ReasoningDispatcher: `makeGeminiRequest` retry/backoff
(geminiService.js) -/

/-- `this.maxRetries` of `OptimizedGeminiService`. -/
def geminiMaxRetries : Nat := 3

/-- `this.baseDelay` of `OptimizedGeminiService` (milliseconds). -/
def geminiBaseDelay : Nat := 1000

/-- The `ApiError(500, ...)` message raised after exhausting retries. -/
def apiErrorMessage (e : Str) : Str :=
  "Gemini API error after 3 retries: ".toList ++ e

/-- Embedding of `makeGeminiRequest(prompt, retryCount)`.  The underlying
call `model.generateContent` is the oracle `attempt : Nat → Except Str Str`
giving each attempt's settled outcome.  Returns the final result, the list
of sleeps performed (ms), and the number of attempts made. -/
def makeGeminiRequest (attempt : Nat → Except Str Str) (retryCount : Nat) :
    Except Str Str × List Nat × Nat :=
  match attempt retryCount with
  | .ok text => (.ok text, [], 1)
  | .error e =>
    if h : retryCount < geminiMaxRetries then
      let delay := geminiBaseDelay * 2 ^ retryCount
      let rest := makeGeminiRequest attempt (retryCount + 1)
      (rest.1, delay :: rest.2.1, rest.2.2 + 1)
    else
      (.error (apiErrorMessage e), [], 1)
termination_by geminiMaxRetries - retryCount
decreasing_by omega

/-- Whether a settled attempt succeeded. -/
def isOkB : Except Str Str → Bool
  | .ok _ => true
  | .error _ => false

/-- Claim C5's description of the retry schedule: at most 4 attempts, the
first success is returned with sleeps 1000·2^j before each retry, and an
upstream-service error is raised only when all 4 attempts fail. -/
def geminiSpec (attempt : Nat → Except Str Str) : Except Str Str × List Nat × Nat :=
  match (List.range 4).find? (fun i => isOkB (attempt i)) with
  | some i => (attempt i, (List.range i).map (fun j => 1000 * 2 ^ j), i + 1)
  | none =>
    ((match attempt 3 with
      | .error e => .error (apiErrorMessage e)
      | .ok t => .ok t), [1000, 2000, 4000], 4)

/-- C5: `makeGeminiRequest` performs at most 4 attempts (one call plus up
to 3 retries), sleeping 1000/2000/4000 ms before the retries, returns the
first successful attempt's text, and raises the upstream error exactly when
all 4 attempts fail. -/
theorem C5_retry_backoff (attempt : Nat → Except Str Str) :
    makeGeminiRequest attempt 0 = geminiSpec attempt ∧
    (makeGeminiRequest attempt 0).2.2 ≤ 4 ∧
    ((∃ e, (makeGeminiRequest attempt 0).1 = Except.error e) ↔
      ∀ i < 4, ∃ e, attempt i = Except.error e) := by
  have hforall : (∀ i < 4, ∃ e, attempt i = Except.error e) ↔
      ((∃ e, attempt 0 = Except.error e) ∧ (∃ e, attempt 1 = Except.error e) ∧
        (∃ e, attempt 2 = Except.error e) ∧ (∃ e, attempt 3 = Except.error e)) := by
    constructor
    · intro h
      exact ⟨h 0 (by omega), h 1 (by omega), h 2 (by omega), h 3 (by omega)⟩
    · rintro ⟨ha, hb, hc, hd⟩ i hi
      interval_cases i <;> assumption
  rw [hforall]
  rcases h0 : attempt 0 with e0 | t0 <;>
    rcases h1 : attempt 1 with e1 | t1 <;>
      rcases h2 : attempt 2 with e2 | t2 <;>
        rcases h3 : attempt 3 with e3 | t3 <;>
          simp [makeGeminiRequest, geminiSpec, isOkB, h0, h1, h2, h3,
            geminiMaxRetries, geminiBaseDelay,
            show List.range 4 = [0, 1, 2, 3] from rfl,
            show List.range 3 = [0, 1, 2] from rfl,
            show List.range 2 = [0, 1] from rfl,
            show List.range 1 = [0] from rfl,
            show List.range 0 = [] from rfl]

/-! ### ReasoningDispatcher: adaptive delay controller (geminiService.js)

The adaptive delay is a JS number repeatedly multiplied by 1.5, 1.2, 0.9
and clamped; it is modelled over `ℚ` (IEEE rounding abstracted). -/

/-- One entry of `this.requestHistory` (the `type`, `timestamp` and `error`
fields play no role in `adjustAdaptiveDelay`). -/
structure RequestRecord where
  success : Bool
  duration : Nat

/-- `history.slice(-10)`: the last at most 10 entries. -/
def lastTen {α : Type} (l : List α) : List α := l.drop (l.length - 10)

/-- Embedding of `adjustAdaptiveDelay()`: truncates the history to the last
10 records and updates the delay; returns the new history and delay. -/
def adjustAdaptiveDelay (history : List RequestRecord) (delay : ℚ) :
    List RequestRecord × ℚ :=
  let recent := lastTen history
  let recentFailures := (recent.filter (fun h => !h.success)).length
  let avgDuration : ℚ := (recent.map (fun h => (h.duration : ℚ))).sum / (recent.length : ℚ)
  if recentFailures > 2 then (recent, min (delay * (3 / 2)) 5000)
  else if avgDuration > 8000 then (recent, min (delay * (6 / 5)) 3000)
  else if recentFailures = 0 ∧ avgDuration < 3000 then (recent, max (delay * (9 / 10)) 500)
  else (recent, delay)

/-- `executeRequest` pushes the completed call's record and then calls
`adjustAdaptiveDelay`. -/
def recordAndAdjust (rec : RequestRecord) (history : List RequestRecord) (delay : ℚ) :
    List RequestRecord × ℚ :=
  adjustAdaptiveDelay (history ++ [rec]) delay

/-- Claim C6's update rule, written from the claim's words over the last at
most 10 recorded calls. -/
def adaptiveDelaySpec (recent : List RequestRecord) (delay : ℚ) : ℚ :=
  let failures := (recent.filter (fun h => !h.success)).length
  let avg : ℚ := (recent.map (fun h => (h.duration : ℚ))).sum / (recent.length : ℚ)
  if 2 < failures then min (delay * (3 / 2)) 5000
  else if 8000 < avg then min (delay * (6 / 5)) 3000
  else if failures = 0 ∧ avg < 3000 then max (delay * (9 / 10)) 500
  else delay

/-- C6: after every completed call the pause becomes exactly the claim's
piecewise function of the last (at most 10) recorded calls: ×1.5 capped at
5000 when more than 2 failed, else ×1.2 capped at 3000 when the average
duration exceeds 8000 ms, else ×0.9 floored at 500 when there were no
failures and the average is under 3000 ms, else unchanged; the retained
history is the at-most-10-element suffix. -/
theorem C6_adaptive_delay (rec : RequestRecord) (history : List RequestRecord) (delay : ℚ) :
    (recordAndAdjust rec history delay).2 =
      adaptiveDelaySpec (lastTen (history ++ [rec])) delay ∧
    (recordAndAdjust rec history delay).1 = lastTen (history ++ [rec]) ∧
    (lastTen (history ++ [rec])).length ≤ 10 ∧
    List.IsSuffix (lastTen (history ++ [rec])) (history ++ [rec]) := by
  have hpair : recordAndAdjust rec history delay =
      (lastTen (history ++ [rec]), adaptiveDelaySpec (lastTen (history ++ [rec])) delay) := by
    unfold recordAndAdjust adjustAdaptiveDelay adaptiveDelaySpec
    dsimp only
    split_ifs <;> rfl
  refine ⟨by rw [hpair], by rw [hpair], ?_, ?_⟩
  · unfold lastTen
    rw [List.length_drop]
    omega
  · exact List.drop_suffix _ _

/-! ### Multi-layer TTL caches (claim C9)

The drive-service caches (`fileListCache`, `metadataCache`,
`downloadCache`) pair each `set` with a `setTimeout(() => delete, ttl)`;
the policy-service `relevanceScoringCache` does the same.  The
`policyFileIdCache` (document-identifier resolutions, policyService
`getPolicyFileId`) and the orchestrator's `this.cache` (policy text and
analysis results) call `set` with NO timer.  No `get` anywhere checks a
stored expiry — nothing is stored beyond the value.  The model below keeps
the live entries and the scheduled deletions; `ttlSet` with `ttl = none` is
a timer-less `set`, and `fireTimers` runs every timer due by `now`. -/

/-- `Map.set`: replace the value under an existing key, else append. -/
def assocSet {κ ν : Type} [BEq κ] (l : List (κ × ν)) (k : κ) (v : ν) : List (κ × ν) :=
  if l.any (fun e => e.1 == k) then l.map (fun e => if e.1 == k then (k, v) else e)
  else l ++ [(k, v)]

/-- `Map.get`: the stored value, with no staleness check. -/
def assocGet {κ ν : Type} [BEq κ] (l : List (κ × ν)) (k : κ) : Option ν :=
  match l.find? (fun e => e.1 == k) with
  | some e => some e.2
  | none => none

/-- A cache with its pending deletion timers. -/
structure TtlCache (κ ν : Type) where
  entries : List (κ × ν)
  timers : List (Nat × κ)

/-- A freshly created `new Map()`. -/
def emptyCache {κ ν : Type} : TtlCache κ ν := ⟨[], []⟩

/-- `cache.set(k, v)` at time `now`, scheduling a deletion `ttl` ms later
when the source pairs the `set` with a `setTimeout` (the drive and
relevance caches), and scheduling nothing when it does not (the
document-identifier and orchestrator caches). -/
def ttlSet {κ ν : Type} [BEq κ] (c : TtlCache κ ν) (k : κ) (v : ν) (now : Nat)
    (ttl : Option Nat) : TtlCache κ ν :=
  { entries := assocSet c.entries k v
    timers :=
      match ttl with
      | some d => (now + d, k) :: c.timers
      | none => c.timers }

/-- Run every deletion timer due by `now`. -/
def fireTimers {κ ν : Type} [BEq κ] (c : TtlCache κ ν) (now : Nat) : TtlCache κ ν :=
  { entries := c.entries.filter (fun e =>
      !(c.timers.any (fun tk => tk.2 == e.1 && decide (tk.1 ≤ now))))
    timers := c.timers.filter (fun tk => decide (now < tk.1)) }

/-- `cache.get(k)`: presence is the only check. -/
def ttlGet {κ ν : Type} [BEq κ] (c : TtlCache κ ν) (k : κ) : Option ν :=
  assocGet c.entries k

/-- Concrete key for C9: a `subfolder_pdfName` cache key of
`policyFileIdCache`. -/
def c9Key : Str := "privacy_Privacy Policy.pdf".toList

/-- Concrete cached value: the resolved drive file id. -/
def c9Id : Str := "file-id-1".toList

/-- State of `policyFileIdCache` at time `t` after `getPolicyFileId` cached
the resolution at time 0 (no timer is ever scheduled for this cache), with
all timers due by `t` fired. -/
def c9State (t : Nat) : TtlCache Str Str :=
  fireTimers (ttlSet emptyCache c9Key c9Id 0 none) t

/-- C9 counterexample: the document-identifier cache stores no expiry and is
never evicted, so for EVERY candidate absolute expiry there is a later read
that still returns the entry — the claimed invariant fails. -/
theorem C9_counterexample :
    ¬ ∃ expiry : Nat, ∀ t : Nat, expiry < t → ttlGet (c9State t) c9Key = none := by
  rintro ⟨e, h⟩
  have hread : ttlGet (c9State (e + 1)) c9Key = some c9Id := rfl
  have hnone := h (e + 1) (by omega)
  rw [hread] at hnone
  exact Option.noConfusion hnone

/-- C9 (amended): a cache whose `set` schedules a deletion timer returns
nothing once the timer has fired (`t0 + ttl ≤ now`) and still returns the
entry before that; a cache whose `set` schedules no timer (identifier
resolutions, orchestrator content/analysis) returns the entry at every
later time. -/
theorem C9_ttl_amended (k v : Str) (t0 now : Nat) :
    (∀ d : Nat, t0 + d ≤ now →
      ttlGet (fireTimers (ttlSet emptyCache k v t0 (some d)) now) k = none) ∧
    (∀ d : Nat, now < t0 + d →
      ttlGet (fireTimers (ttlSet emptyCache k v t0 (some d)) now) k = some v) ∧
    (ttlGet (fireTimers (ttlSet emptyCache k v t0 none) now) k = some v) := by
  refine ⟨?_, ?_, ?_⟩
  · intro d hd
    simp [ttlGet, fireTimers, ttlSet, emptyCache, assocSet, assocGet, hd]
  · intro d hd
    simp [ttlGet, fireTimers, ttlSet, emptyCache, assocSet, assocGet, Nat.not_le.mpr hd]
  · simp [ttlGet, fireTimers, ttlSet, emptyCache, assocSet, assocGet]

/-- Concrete attempt oracle for the C5 witness: the first two attempts
fail, the third succeeds. -/
def attemptW : Nat → Except Str Str :=
  fun i => if i < 2 then .error "boom".toList else .ok "answer".toList

/-- C5 witness: the schedule equality at the concrete oracle. -/
theorem C5_retry_backoff_witness : makeGeminiRequest attemptW 0 = geminiSpec attemptW :=
  (C5_retry_backoff attemptW).1

/-- Concrete completed-call record for the C6 witness. -/
def recW : RequestRecord := { success := true, duration := 1200 }

/-- C6 witness: the update rule at a concrete record and delay. -/
theorem C6_adaptive_delay_witness :
    (recordAndAdjust recW [] 1000).2 = adaptiveDelaySpec (lastTen [recW]) 1000 := by
  have h := (C6_adaptive_delay recW [] 1000).1
  simpa using h

/-- C8 witness: with descriptor `priv.pdf` and the one-file listing, the
no-match direction of the amended resolution rule. -/
theorem C8_first_match_witness :
    findMatchingFile "priv.pdf".toList [c8File] = none :=
  ((C8_first_match_resolution "priv.pdf".toList [c8File]).2).mpr (by decide)

/-- C9 witness: a 10-minute-TTL entry set at time 0 is gone at its expiry
once the timer fires, while the timer-less entry is still served then. -/
theorem C9_ttl_witness :
    ttlGet (fireTimers (ttlSet emptyCache c9Key c9Id 0 (some 600000)) 600000) c9Key = none ∧
    ttlGet (fireTimers (ttlSet emptyCache c9Key c9Id 0 none) 600000) c9Key = some c9Id :=
  ⟨(C9_ttl_amended c9Key c9Id 0 600000).1 600000 (by omega),
    (C9_ttl_amended c9Key c9Id 0 600000).2.2⟩

end PolicyChecker
